import Mathlib

/-!
Verification of the SMO-based SVM implementation (`SVM_final_main.ipynb`).

The optimizer state and the training loop are embedded over `ℚ`
(the source uses IEEE floats; the algorithmic content — bounds, clipping,
bias selection, cache maintenance, loop control — is exact field
arithmetic, so rationals give a faithful, computable model).  The kernel
function itself (`linear` / `poly` / `rbf` dispatch) needs `Real.exp`, so
the kernel and inference layer is embedded over `ℝ`, and the training
layer abstracts the kernel as a parameter.
-/

namespace SVM

/-- The fixed tolerance `1e-6` appearing throughout the source. -/
def tol : ℚ := 1 / 1000000

/-- The mutable per-instance state of the `SVM` object during training:
penalty `C`, labels `Y`, the precomputed Gram matrix `K`
(`self.product_matrix`), the multipliers `alpha`, the bias `b` and the
error cache `E`.  `m` is the number of training samples (`self.m`). -/
structure SVMState (m : ℕ) where
  C : ℚ
  Y : Fin m → ℚ
  K : Fin m → Fin m → ℚ
  alpha : Fin m → ℚ
  b : ℚ
  E : Fin m → ℚ

/-- `function_g(self, i)`: `self.b + np.dot(self.alpha * self.Y, self.product_matrix[i])`,
that is `b + Σ_j α_j·y_j·K[i][j]`. -/
def function_g {m : ℕ} (st : SVMState m) (i : Fin m) : ℚ :=
  st.b + ∑ j, st.alpha j * st.Y j * st.K i j

/-- `create_E(self)`: recomputes the whole error cache,
`self.E = np.dot(self.alpha * self.Y, self.product_matrix) + self.b - self.Y`;
entry `i` of the vector-matrix product is `Σ_j α_j·y_j·K[j][i]`. -/
def create_E {m : ℕ} (st : SVMState m) : SVMState m :=
  { st with E := fun i => (∑ j, st.alpha j * st.Y j * st.K j i) + st.b - st.Y i }

/-- `clip_alpha(self, _alpha, L, H)`: clip to `H` from above, `L` from below. -/
def clip_alpha (a L H : ℚ) : ℚ :=
  if a > H then H
  else if a < L then L
  else a

/-- `update_alpha_pair(self, i1, i2)`: the analytic two-variable SMO step.
Returns the Python `True`/`False` result paired with the state after the
call (the source mutates `self`; the failure branches return before any
mutation, so they pair `false` with the unchanged state). -/
def update_alpha_pair {m : ℕ} (st : SVMState m) (i1 i2 : Fin m) :
    Bool × SVMState m :=
  if i1 = i2 then (false, st) else
  let alpha1_old := st.alpha i1
  let alpha2_old := st.alpha i2
  let Y1 := st.Y i1
  let Y2 := st.Y i2
  let E1 := st.E i1
  let E2 := st.E i2
  let LH := if Y1 = Y2 then
      (max 0 (alpha1_old + alpha2_old - st.C), min st.C (alpha1_old + alpha2_old))
    else
      (max 0 (alpha2_old - alpha1_old), min st.C (st.C + alpha2_old - alpha1_old))
  let eta := st.K i1 i1 + st.K i2 i2 - 2 * st.K i1 i2
  if eta ≤ 0 then (false, st) else
  let alpha2_new_unc := alpha2_old + Y2 * (E1 - E2) / eta
  let alpha2_new := clip_alpha alpha2_new_unc LH.1 LH.2
  let alpha1_new := alpha1_old + Y1 * Y2 * (alpha2_old - alpha2_new)
  let b1_new := st.b - E1 - Y1 * st.K i1 i1 * (alpha1_new - alpha1_old)
      - Y2 * st.K i2 i1 * (alpha2_new - alpha2_old)
  let b2_new := st.b - E2 - Y1 * st.K i1 i2 * (alpha1_new - alpha1_old)
      - Y2 * st.K i2 i2 * (alpha2_new - alpha2_old)
  let b_new := if 0 < alpha1_new ∧ alpha1_new < st.C then b1_new
    else if 0 < alpha2_new ∧ alpha2_new < st.C then b2_new
    else (b1_new + b2_new) / 2
  let st1 : SVMState m :=
    { st with
      alpha := Function.update (Function.update st.alpha i1 alpha1_new) i2 alpha2_new
      b := b_new }
  (true, create_E st1)

/-- First occurrence of the maximum of `f` in a list, as `np.argmax`
returns the first maximizing position.  A head element is kept unless a
strictly larger value occurs later. -/
def argmaxList {m : ℕ} (f : Fin m → ℚ) : List (Fin m) → Option (Fin m)
  | [] => none
  | j :: rest =>
    match argmaxList f rest with
    | none => some j
    | some k => if f k > f j then some k else some j

/-- The candidate list of `examine_example`:
`np.where((self.alpha > 1e-6) & (self.alpha < self.C - 1e-6))[0]` (ascending
index order) with `i1` removed by the list comprehension. -/
def candidates {m : ℕ} (st : SVMState m) (i1 : Fin m) : List (Fin m) :=
  ((List.finRange m).filter fun k => tol < st.alpha k ∧ st.alpha k < st.C - tol).filter
    fun k => k ≠ i1

/-- The KKT-violation predicate of `examine_example` at index `i1`, with
`E1` freshly recomputed and `radius = E1 * Y[i1]`. -/
def kktViolated {m : ℕ} (st : SVMState m) (i1 : Fin m) : Prop :=
  let E1 := function_g st i1 - st.Y i1
  let radius := E1 * st.Y i1
  (st.alpha i1 < tol ∧ radius < 0) ∨
  (st.alpha i1 > st.C - tol ∧ radius > 0) ∨
  (tol ≤ st.alpha i1 ∧ st.alpha i1 ≤ st.C - tol ∧ |radius| > tol)

instance {m : ℕ} (st : SVMState m) (i1 : Fin m) : Decidable (kktViolated st i1) := by
  unfold kktViolated; infer_instance

/-- The tier-2 fallback of `examine_example`: walk the (shuffled) index
list, skip `i1`, attempt `update_alpha_pair` with each entry, stop at the
first success.  The third component is the ghost trace of the `i2`
indices actually attempted. -/
def tryList {m : ℕ} (st : SVMState m) (i1 : Fin m) :
    List (Fin m) → Bool × SVMState m × List (Fin m)
  | [] => (false, st, [])
  | j :: rest =>
    if j = i1 then tryList st i1 rest
    else
      let r := update_alpha_pair st i1 j
      if r.1 then (true, r.2, [j])
      else
        let r2 := tryList r.2 i1 rest
        (r2.1, r2.2.1, j :: r2.2.2)

/-- `examine_example(self, i1)` with the tier-2 scan order passed in
explicitly (the source shuffles `list(range(self.m))` with
`np.random.shuffle`).  Returns the Python boolean, the state after the
call, and the ghost trace of attempted `i2` indices. -/
def examEx {m : ℕ} (st : SVMState m) (i1 : Fin m) (order : List (Fin m)) :
    Bool × SVMState m × List (Fin m) :=
  if kktViolated st i1 then
    let E1 := function_g st i1 - st.Y i1
    match argmaxList (fun k => |st.E k - E1|) (candidates st i1) with
    | some j2 =>
      let r := update_alpha_pair st i1 j2
      if r.1 then (true, r.2, [j2])
      else
        let r2 := tryList r.2 i1 order
        (r2.1, r2.2.1, j2 :: r2.2.2)
    | none => tryList st i1 order
  else (false, st, [])

/-- `examine_example` as the source exposes it: boolean result and
post-call state (the ghost attempt trace dropped). -/
def examine_example {m : ℕ} (st : SVMState m) (i1 : Fin m)
    (order : List (Fin m)) : Bool × SVMState m :=
  ((examEx st i1 order).1, (examEx st i1 order).2.1)

/-- Gram-matrix construction `computer_product_matrix`, with the kernel
abstracted: the upper triangle `i ≤ j` is evaluated and the lower
triangle mirrored from it. -/
def computer_product_matrixQ {V : Type} {m : ℕ} (ker : V → V → ℚ)
    (X : Fin m → V) : Fin m → Fin m → ℚ :=
  fun i j => if (i : ℕ) ≤ (j : ℕ) then ker (X i) (X j) else ker (X j) (X i)

/-- `init_args(self, features, labels)`: `alpha = 0`, `b = 0`, build the
Gram matrix, and `E = b - Y` (so `E_i = -y_i`). -/
def init_args {V : Type} {m : ℕ} (C : ℚ) (ker : V → V → ℚ)
    (X : Fin m → V) (Y : Fin m → ℚ) : SVMState m :=
  { C := C
    Y := Y
    K := computer_product_matrixQ ker X
    alpha := fun _ => 0
    b := 0
    E := fun i => 0 - Y i }

/-- `predict(self, data)` with the kernel abstracted:
`r = b + Σ_i α_i·y_i·kernel(data, x_i)`, then `1 if r > 0 else -1`. -/
def predictQ {V : Type} {m : ℕ} (ker : V → V → ℚ) (X : Fin m → V)
    (st : SVMState m) (data : V) : ℚ :=
  let r := st.b + ∑ i, st.alpha i * st.Y i * ker data (X i)
  if r > 0 then 1 else -1

/-- The `right_count` accumulated by `score`: one per test point whose
prediction equals its label.  (A label list shorter than the point list
would raise `IndexError` in the source; the trailing points count 0 here
and no claim exercises that case.) -/
def rightCount {V : Type} {m : ℕ} (ker : V → V → ℚ) (X : Fin m → V)
    (st : SVMState m) : List V → List ℚ → ℕ
  | [], _ => 0
  | _ :: _, [] => 0
  | x :: xs, y :: ys =>
    (if predictQ ker X st x = y then 1 else 0) + rightCount ker X st xs ys

/-- `score(self, X_test, y_test)`: `right_count / len(X_test)`.  The
division by `len(X_test)` raises `ZeroDivisionError` in Python when the
test list is empty; that failure is modelled as `none`. -/
def score {V : Type} {m : ℕ} (ker : V → V → ℚ) (X : Fin m → V)
    (st : SVMState m) (X_test : List V) (y_test : List ℚ) : Option ℚ :=
  if X_test.length = 0 then none
  else some ((rightCount ker X st X_test y_test : ℚ) / (X_test.length : ℚ))

/-- One pass of the `fit` training loop: `examine_example(i)` for every
`i` in `0..m-1` in ascending order; `orders i` is the shuffled tier-2
scan list used by the call on index `i`. -/
def runPass {m : ℕ} (orders : Fin m → List (Fin m)) (st : SVMState m) :
    SVMState m :=
  (List.finRange m).foldl (fun s i => (examEx s i (orders i)).2.1) st

/-- The pass loop of `fit`: `fuel` remaining passes, `p` the index of the
next pass.  After each pass, if a test set was supplied, `score` is
evaluated and recorded; a `score` failure (empty test set) aborts the
whole call, modelled by `none`. -/
def fitAux {V : Type} {m : ℕ} (ker : V → V → ℚ) (X : Fin m → V)
    (orders : ℕ → Fin m → List (Fin m))
    (testOpt : Option (List V × List ℚ)) :
    ℕ → ℕ → SVMState m → Option (SVMState m × List ℚ)
  | 0, _, st => some (st, [])
  | fuel + 1, p, st =>
    let st1 := runPass (orders p) st
    match testOpt with
    | none =>
      match fitAux ker X orders testOpt fuel (p + 1) st1 with
      | none => none
      | some (stf, accs) => some (stf, accs)
    | some (xs, ys) =>
      match score ker X st1 xs ys with
      | none => none
      | some a =>
        match fitAux ker X orders testOpt fuel (p + 1) st1 with
        | none => none
        | some (stf, accs) => some (stf, a :: accs)

/-- `fit(self, features, labels, X_test, y_test)`: initialize, run
`max_iter` passes, and return the per-pass accuracy list
(`test_accuracies`, empty when no test set is supplied).  `none` models
the `ZeroDivisionError` escaping from `score` on an empty supplied test
set. -/
def fit {V : Type} {m : ℕ} (C : ℚ) (max_iter : ℕ) (ker : V → V → ℚ)
    (orders : ℕ → Fin m → List (Fin m)) (X : Fin m → V) (Y : Fin m → ℚ)
    (testOpt : Option (List V × List ℚ)) : Option (List ℚ) :=
  match fitAux ker X orders testOpt max_iter 0 (init_args C ker X Y) with
  | none => none
  | some (_, accs) => some accs

/-- The state reached after `k` passes of `fit` (pass `p` uses scan
orders `orders p`). -/
def stateAfter {V : Type} {m : ℕ} (C : ℚ) (ker : V → V → ℚ)
    (orders : ℕ → Fin m → List (Fin m)) (X : Fin m → V) (Y : Fin m → ℚ) :
    ℕ → SVMState m
  | 0 => init_args C ker X Y
  | k + 1 => runPass (orders k) (stateAfter C ker orders X Y k)

/-! ## Named pieces of the pair update

Shorthands for the quantities `update_alpha_pair` computes, used to state
its characterization. -/

/-- `eta = K[i1][i1] + K[i2][i2] - 2*K[i1][i2]`. -/
def eta {m : ℕ} (st : SVMState m) (i1 i2 : Fin m) : ℚ :=
  st.K i1 i1 + st.K i2 i2 - 2 * st.K i1 i2

/-- The clip bounds `(L, H)` of the pair update. -/
def boundsLH {m : ℕ} (st : SVMState m) (i1 i2 : Fin m) : ℚ × ℚ :=
  if st.Y i1 = st.Y i2 then
    (max 0 (st.alpha i1 + st.alpha i2 - st.C), min st.C (st.alpha i1 + st.alpha i2))
  else
    (max 0 (st.alpha i2 - st.alpha i1), min st.C (st.C + st.alpha i2 - st.alpha i1))

/-- The committed `α_i2`: the unclipped step, clipped to `[L, H]`. -/
def alpha2new {m : ℕ} (st : SVMState m) (i1 i2 : Fin m) : ℚ :=
  clip_alpha (st.alpha i2 + st.Y i2 * (st.E i1 - st.E i2) / eta st i1 i2)
    (boundsLH st i1 i2).1 (boundsLH st i1 i2).2

/-- The committed `α_i1`. -/
def alpha1new {m : ℕ} (st : SVMState m) (i1 i2 : Fin m) : ℚ :=
  st.alpha i1 + st.Y i1 * st.Y i2 * (st.alpha i2 - alpha2new st i1 i2)

/-- Bias candidate `b1_new`. -/
def b1new {m : ℕ} (st : SVMState m) (i1 i2 : Fin m) : ℚ :=
  st.b - st.E i1 - st.Y i1 * st.K i1 i1 * (alpha1new st i1 i2 - st.alpha i1)
    - st.Y i2 * st.K i2 i1 * (alpha2new st i1 i2 - st.alpha i2)

/-- Bias candidate `b2_new`. -/
def b2new {m : ℕ} (st : SVMState m) (i1 i2 : Fin m) : ℚ :=
  st.b - st.E i2 - st.Y i1 * st.K i1 i2 * (alpha1new st i1 i2 - st.alpha i1)
    - st.Y i2 * st.K i2 i2 * (alpha2new st i1 i2 - st.alpha i2)

/-- The committed bias: `b1` if `α1_new` is interior, else `b2` if
`α2_new` is interior, else the average. -/
def bnew {m : ℕ} (st : SVMState m) (i1 i2 : Fin m) : ℚ :=
  if 0 < alpha1new st i1 i2 ∧ alpha1new st i1 i2 < st.C then b1new st i1 i2
  else if 0 < alpha2new st i1 i2 ∧ alpha2new st i1 i2 < st.C then b2new st i1 i2
  else (b1new st i1 i2 + b2new st i1 i2) / 2

/-- The state committed by a successful `update_alpha_pair`. -/
def committedState {m : ℕ} (st : SVMState m) (i1 i2 : Fin m) : SVMState m :=
  create_E
    { st with
      alpha := Function.update (Function.update st.alpha i1 (alpha1new st i1 i2))
        i2 (alpha2new st i1 i2)
      b := bnew st i1 i2 }

/-- Modelled from the spec's words for claim C1 (the analytic step of
§4.6): with `L`/`H` as the spec's box constraints, `α_i2` becomes the
cached-error step clipped to `[L, H]`, `α_i1` becomes
`α1_old + y1·y2·(α2_old − α2_new)`, and the bias becomes `b1`, `b2` or
their average according to which new multiplier is strictly interior to
`(0, C)`.  Returns `(α_i1, α_i2, bias)`. -/
def specAnalyticStep {m : ℕ} (st : SVMState m) (i1 i2 : Fin m) : ℚ × ℚ × ℚ :=
  let a1 := st.alpha i1
  let a2 := st.alpha i2
  let y1 := st.Y i1
  let y2 := st.Y i2
  let E1 := st.E i1
  let E2 := st.E i2
  let L := if y1 = y2 then max 0 (a1 + a2 - st.C) else max 0 (a2 - a1)
  let H := if y1 = y2 then min st.C (a1 + a2) else min st.C (st.C + a2 - a1)
  let e := st.K i1 i1 + st.K i2 i2 - 2 * st.K i1 i2
  let a2unc := a2 + y2 * (E1 - E2) / e
  let a2n := if a2unc > H then H else if a2unc < L then L else a2unc
  let a1n := a1 + y1 * y2 * (a2 - a2n)
  let bias1 := st.b - E1 - y1 * st.K i1 i1 * (a1n - a1) - y2 * st.K i2 i1 * (a2n - a2)
  let bias2 := st.b - E2 - y1 * st.K i1 i2 * (a1n - a1) - y2 * st.K i2 i2 * (a2n - a2)
  let biasn := if 0 < a1n ∧ a1n < st.C then bias1
    else if 0 < a2n ∧ a2n < st.C then bias2
    else (bias1 + bias2) / 2
  (a1n, a2n, biasn)

/-! ## Invariants -/

/-- Every multiplier lies in the box `[0, C]`. -/
def BoxOK {m : ℕ} (st : SVMState m) : Prop :=
  ∀ k, 0 ≤ st.alpha k ∧ st.alpha k ≤ st.C

/-- Every label is `+1` or `-1` (the data model of the spec, §3). -/
def LabelsOK {m : ℕ} (st : SVMState m) : Prop :=
  ∀ k, st.Y k = 1 ∨ st.Y k = -1

/-- The error cache agrees with `create_E`'s formula for the current
multipliers and bias. -/
def Econsistent {m : ℕ} (st : SVMState m) : Prop :=
  ∀ i, st.E i = (∑ j, st.alpha j * st.Y j * st.K j i) + st.b - st.Y i

/-- The pass chain of `fit` starting from pass number `p` in state `st`:
`passFrom orders p st k` is the state after `k` further passes. -/
def passFrom {m : ℕ} (orders : ℕ → Fin m → List (Fin m)) (p : ℕ)
    (st : SVMState m) : ℕ → SVMState m
  | 0 => st
  | k + 1 => runPass (orders (p + k)) (passFrom orders p st k)

/-! ## Concrete states used by witnesses -/

/-- A 2-sample state in which the pair update succeeds without changing
either multiplier: equal labels, interior multipliers, zero cached
errors. -/
def noStepState : SVMState 2 :=
  { C := 1
    Y := fun _ => 1
    K := fun i j => if i = j then 1 else 0
    alpha := fun _ => 1 / 2
    b := 0
    E := fun _ => 0 }

/-- A 2-sample state whose index `0` violates the KKT conditions while
index `1` is non-bound (so tier 1 of `examine_example` has a candidate). -/
def violState : SVMState 2 :=
  { C := 1
    Y := fun _ => 1
    K := fun i j => if i = j then 1 else 0
    alpha := fun k => if k = 0 then 0 else 1 / 2
    b := 0
    E := fun k => if k = 0 then -1 else -1 / 2 }

/-- A 1-sample model state whose predictions on `[1, -1, 1, 1]` are
`[1, -1, 1, 1]`: one training point `1` with label `1`, `α = 1`, `b = 0`,
under the product kernel on `ℚ`. -/
def exampleState : SVMState 1 :=
  { C := 1
    Y := fun _ => 1
    K := fun _ _ => 1
    alpha := fun _ => 1
    b := 0
    E := fun _ => 0 }

/-! ## Kernel and inference layer (`ℝ`)

The concrete kernel dispatch of the source (`kernel(self, x1, x2)`)
needs `Real.exp` for the `rbf` case, so this layer works over `ℝ` with
feature vectors `Fin n → ℝ`. -/

/-- `np.dot(x1, x2)` for 1-D arrays. -/
def dotR {n : ℕ} (x1 x2 : Fin n → ℝ) : ℝ :=
  ∑ i, x1 i * x2 i

/-- `kernel(self, x1, x2)`: dispatch on the configured kernel name;
`linear` is the dot product, `poly` is `(x1·x2 + 1)^2`, `rbf` is
`exp(-Σ (x1-x2)^2)`, and any other name falls through to `0`. -/
noncomputable def kernel {n : ℕ} (name : String) (x1 x2 : Fin n → ℝ) : ℝ :=
  if name = "linear" then dotR x1 x2
  else if name = "poly" then (dotR x1 x2 + 1) ^ 2
  else if name = "rbf" then Real.exp (-1 * ∑ i, (x1 i - x2 i) ^ 2)
  else 0

/-- `computer_product_matrix(self)` with the source's own `kernel`: the
upper triangle `i ≤ j` is evaluated with `kernel(X[i], X[j])` and the
lower triangle mirrored from it. -/
noncomputable def computer_product_matrix {n m : ℕ} (name : String)
    (X : Fin m → Fin n → ℝ) : Fin m → Fin m → ℝ :=
  fun i j => if (i : ℕ) ≤ (j : ℕ) then kernel name (X i) (X j)
    else kernel name (X j) (X i)

/-- The raw decision value `r = b + Σ_i α_i·y_i·kernel(data, x_i)`
accumulated by both `predict` and `decision_function`. -/
noncomputable def rawDecision {n m : ℕ} (name : String) (alpha Y : Fin m → ℝ) (b : ℝ)
    (X : Fin m → Fin n → ℝ) (data : Fin n → ℝ) : ℝ :=
  b + ∑ i, alpha i * Y i * kernel name (data) (X i)

/-- `predict(self, data)`: `1 if r > 0 else -1`. -/
noncomputable def predict {n m : ℕ} (name : String) (alpha Y : Fin m → ℝ) (b : ℝ)
    (X : Fin m → Fin n → ℝ) (data : Fin n → ℝ) : ℝ :=
  if rawDecision name alpha Y b X data > 0 then 1 else -1

/-- `decision_function(self, X_eval)` on a single query vector (the
`X_eval.ndim == 1` branch): the raw value, unthresholded. -/
noncomputable def decision_function {n m : ℕ} (name : String) (alpha Y : Fin m → ℝ)
    (b : ℝ) (X : Fin m → Fin n → ℝ) (data : Fin n → ℝ) : ℝ :=
  rawDecision name alpha Y b X data

/-- The state at the start of a KKT check inside pass `k` of `fit`: the
examined prefix `l` of the pass's index scan has already been folded over
the state that began the pass. -/
def midPassState {V : Type} {m : ℕ} (C : ℚ) (ker : V → V → ℚ)
    (orders : ℕ → Fin m → List (Fin m)) (X : Fin m → V) (Y : Fin m → ℚ)
    (k : ℕ) (l : List (Fin m)) : SVMState m :=
  l.foldl (fun s i => (examEx s i (orders k i)).2.1)
    (stateAfter C ker orders X Y k)

/-! ## Characterization of the pair update -/

theorem update_alpha_pair_fail {m : ℕ} (st : SVMState m) (i1 i2 : Fin m)
    (h : i1 = i2 ∨ eta st i1 i2 ≤ 0) :
    update_alpha_pair st i1 i2 = (false, st) := by
  rcases h with h | h
  · simp only [update_alpha_pair, if_pos h]
  · by_cases hne : i1 = i2
    · simp only [update_alpha_pair, if_pos hne]
    · have h' : st.K i1 i1 + st.K i2 i2 - 2 * st.K i1 i2 ≤ 0 := h
      simp only [update_alpha_pair, if_neg hne, if_pos h']

theorem update_alpha_pair_success {m : ℕ} (st : SVMState m) (i1 i2 : Fin m)
    (hne : i1 ≠ i2) (heta : ¬ eta st i1 i2 ≤ 0) :
    update_alpha_pair st i1 i2 = (true, committedState st i1 i2) := by
  have heta' : ¬ st.K i1 i1 + st.K i2 i2 - 2 * st.K i1 i2 ≤ 0 := heta
  simp only [update_alpha_pair, if_neg hne, if_neg heta']
  simp only [committedState, alpha1new, alpha2new, bnew, b1new, b2new, boundsLH,
    eta, clip_alpha]

theorem upd_C {m : ℕ} (st : SVMState m) (i1 i2 : Fin m) :
    ((update_alpha_pair st i1 i2).2).C = st.C := by
  by_cases h : i1 = i2 ∨ eta st i1 i2 ≤ 0
  · rw [update_alpha_pair_fail st i1 i2 h]
  · push_neg at h
    rw [update_alpha_pair_success st i1 i2 h.1 (not_le.mpr h.2)]
    rfl

theorem upd_Y {m : ℕ} (st : SVMState m) (i1 i2 : Fin m) :
    ((update_alpha_pair st i1 i2).2).Y = st.Y := by
  by_cases h : i1 = i2 ∨ eta st i1 i2 ≤ 0
  · rw [update_alpha_pair_fail st i1 i2 h]
  · push_neg at h
    rw [update_alpha_pair_success st i1 i2 h.1 (not_le.mpr h.2)]
    rfl

theorem upd_K {m : ℕ} (st : SVMState m) (i1 i2 : Fin m) :
    ((update_alpha_pair st i1 i2).2).K = st.K := by
  by_cases h : i1 = i2 ∨ eta st i1 i2 ≤ 0
  · rw [update_alpha_pair_fail st i1 i2 h]
  · push_neg at h
    rw [update_alpha_pair_success st i1 i2 h.1 (not_le.mpr h.2)]
    rfl

theorem clip_alpha_mem (a L H : ℚ) (h : L ≤ H) :
    L ≤ clip_alpha a L H ∧ clip_alpha a L H ≤ H := by
  unfold clip_alpha
  split_ifs with h1 h2 <;> constructor <;> linarith

theorem newalphas_mem {m : ℕ} (st : SVMState m) (i1 i2 : Fin m)
    (hC : 0 < st.C)
    (hy1 : st.Y i1 = 1 ∨ st.Y i1 = -1) (hy2 : st.Y i2 = 1 ∨ st.Y i2 = -1)
    (h1 : 0 ≤ st.alpha i1) (h1' : st.alpha i1 ≤ st.C)
    (h2 : 0 ≤ st.alpha i2) (h2' : st.alpha i2 ≤ st.C) :
    (0 ≤ alpha2new st i1 i2 ∧ alpha2new st i1 i2 ≤ st.C) ∧
    (0 ≤ alpha1new st i1 i2 ∧ alpha1new st i1 i2 ≤ st.C) := by
  by_cases hy : st.Y i1 = st.Y i2
  · have hyy : st.Y i1 * st.Y i2 = 1 := by
      rw [← hy]
      rcases hy1 with h | h <;> rw [h] <;> norm_num
    have hL : (boundsLH st i1 i2).1 = max 0 (st.alpha i1 + st.alpha i2 - st.C) := by
      rw [boundsLH, if_pos hy]
    have hH : (boundsLH st i1 i2).2 = min st.C (st.alpha i1 + st.alpha i2) := by
      rw [boundsLH, if_pos hy]
    have hLH : (boundsLH st i1 i2).1 ≤ (boundsLH st i1 i2).2 := by
      rw [hL, hH]
      apply max_le
      · exact le_min hC.le (by linarith)
      · exact le_min (by linarith) (by linarith)
    have hmem := clip_alpha_mem
      (st.alpha i2 + st.Y i2 * (st.E i1 - st.E i2) / eta st i1 i2)
      (boundsLH st i1 i2).1 (boundsLH st i1 i2).2 hLH
    have ha2 : (boundsLH st i1 i2).1 ≤ alpha2new st i1 i2 ∧
        alpha2new st i1 i2 ≤ (boundsLH st i1 i2).2 := hmem
    rw [hL, hH] at ha2
    have hb1 : st.alpha i1 + st.alpha i2 - st.C ≤ alpha2new st i1 i2 :=
      le_trans (le_max_right _ _) ha2.1
    have hb2 : alpha2new st i1 i2 ≤ st.alpha i1 + st.alpha i2 :=
      le_trans ha2.2 (min_le_right _ _)
    have hb0 : 0 ≤ alpha2new st i1 i2 := le_trans (le_max_left _ _) ha2.1
    have hbC : alpha2new st i1 i2 ≤ st.C := le_trans ha2.2 (min_le_left _ _)
    have ha1 : alpha1new st i1 i2 =
        st.alpha i1 + st.alpha i2 - alpha2new st i1 i2 := by
      rw [alpha1new, hyy]; ring
    refine ⟨⟨hb0, hbC⟩, ?_, ?_⟩ <;> rw [ha1] <;> linarith
  · have hyy : st.Y i1 * st.Y i2 = -1 := by
      rcases hy1 with h | h <;> rcases hy2 with h' | h'
      · exact absurd (h.trans h'.symm) hy
      · rw [h, h']; norm_num
      · rw [h, h']; norm_num
      · exact absurd (h.trans h'.symm) hy
    have hL : (boundsLH st i1 i2).1 = max 0 (st.alpha i2 - st.alpha i1) := by
      rw [boundsLH, if_neg hy]
    have hH : (boundsLH st i1 i2).2 =
        min st.C (st.C + st.alpha i2 - st.alpha i1) := by
      rw [boundsLH, if_neg hy]
    have hLH : (boundsLH st i1 i2).1 ≤ (boundsLH st i1 i2).2 := by
      rw [hL, hH]
      apply max_le
      · exact le_min hC.le (by linarith)
      · exact le_min (by linarith) (by linarith)
    have hmem := clip_alpha_mem
      (st.alpha i2 + st.Y i2 * (st.E i1 - st.E i2) / eta st i1 i2)
      (boundsLH st i1 i2).1 (boundsLH st i1 i2).2 hLH
    have ha2 : (boundsLH st i1 i2).1 ≤ alpha2new st i1 i2 ∧
        alpha2new st i1 i2 ≤ (boundsLH st i1 i2).2 := hmem
    rw [hL, hH] at ha2
    have hb1 : st.alpha i2 - st.alpha i1 ≤ alpha2new st i1 i2 :=
      le_trans (le_max_right _ _) ha2.1
    have hb2 : alpha2new st i1 i2 ≤ st.C + st.alpha i2 - st.alpha i1 :=
      le_trans ha2.2 (min_le_right _ _)
    have hb0 : 0 ≤ alpha2new st i1 i2 := le_trans (le_max_left _ _) ha2.1
    have hbC : alpha2new st i1 i2 ≤ st.C := le_trans ha2.2 (min_le_left _ _)
    have ha1 : alpha1new st i1 i2 =
        st.alpha i1 - st.alpha i2 + alpha2new st i1 i2 := by
      rw [alpha1new, hyy]; ring
    refine ⟨⟨hb0, hbC⟩, ?_, ?_⟩ <;> rw [ha1] <;> linarith

theorem update_preserves_box {m : ℕ} (st : SVMState m) (i1 i2 : Fin m)
    (hC : 0 < st.C) (hY : LabelsOK st) (hB : BoxOK st) :
    BoxOK ((update_alpha_pair st i1 i2).2) := by
  by_cases h : i1 = i2 ∨ eta st i1 i2 ≤ 0
  · rw [update_alpha_pair_fail st i1 i2 h]; exact hB
  · push_neg at h
    rw [update_alpha_pair_success st i1 i2 h.1 (not_le.mpr h.2)]
    intro k
    have hmem := newalphas_mem st i1 i2 hC (hY i1) (hY i2)
      (hB i1).1 (hB i1).2 (hB i2).1 (hB i2).2
    have halpha : (committedState st i1 i2).alpha =
        Function.update (Function.update st.alpha i1 (alpha1new st i1 i2))
          i2 (alpha2new st i1 i2) := rfl
    have hCC : (committedState st i1 i2).C = st.C := rfl
    rw [halpha, hCC, Function.update_apply, Function.update_apply]
    split_ifs with hk2 hk1
    · exact hmem.1
    · exact hmem.2
    · exact hB k

/-! ## Preservation of invariants through the training loop -/

/-- Combined hypotheses under which the box invariant propagates:
positive penalty, `±1` labels, multipliers in the box. -/
def GoodBox {m : ℕ} (st : SVMState m) : Prop :=
  0 < st.C ∧ LabelsOK st ∧ BoxOK st

theorem upd_goodbox {m : ℕ} (st : SVMState m) (i1 i2 : Fin m)
    (h : GoodBox st) : GoodBox ((update_alpha_pair st i1 i2).2) := by
  refine ⟨?_, ?_, update_preserves_box st i1 i2 h.1 h.2.1 h.2.2⟩
  · rw [upd_C]; exact h.1
  · intro k; rw [upd_Y]; exact h.2.1 k

theorem tryList_goodbox {m : ℕ} (i1 : Fin m) (l : List (Fin m)) :
    ∀ st : SVMState m, GoodBox st → GoodBox (tryList st i1 l).2.1 := by
  induction l with
  | nil => intro st h; exact h
  | cons j rest ih =>
    intro st h
    simp only [tryList]
    split_ifs with hj hr
    · exact ih st h
    · exact upd_goodbox st i1 j h
    · exact ih _ (upd_goodbox st i1 j h)

theorem examEx_goodbox {m : ℕ} (st : SVMState m) (i1 : Fin m)
    (order : List (Fin m)) (h : GoodBox st) :
    GoodBox (examEx st i1 order).2.1 := by
  unfold examEx
  split_ifs with hv
  · simp only
    cases hsel : argmaxList
        (fun k => |st.E k - (function_g st i1 - st.Y i1)|) (candidates st i1) with
    | none => simp only [hsel]; exact tryList_goodbox i1 order st h
    | some j2 =>
      simp only [hsel]
      split_ifs with hr
      · exact upd_goodbox st i1 j2 h
      · exact tryList_goodbox i1 order _ (upd_goodbox st i1 j2 h)
  · exact h

theorem foldl_exam_goodbox {m : ℕ} (f : Fin m → List (Fin m))
    (l : List (Fin m)) :
    ∀ st : SVMState m, GoodBox st →
      GoodBox (l.foldl (fun s i => (examEx s i (f i)).2.1) st) := by
  induction l with
  | nil => intro st h; exact h
  | cons j rest ih =>
    intro st h
    exact ih _ (examEx_goodbox st j (f j) h)

theorem runPass_goodbox {m : ℕ} (orders : Fin m → List (Fin m))
    (st : SVMState m) (h : GoodBox st) : GoodBox (runPass orders st) :=
  foldl_exam_goodbox orders (List.finRange m) st h

theorem fitAux_goodbox {V : Type} {m : ℕ} (ker : V → V → ℚ) (X : Fin m → V)
    (orders : ℕ → Fin m → List (Fin m)) (testOpt : Option (List V × List ℚ))
    (fuel : ℕ) :
    ∀ (p : ℕ) (st : SVMState m) (stf : SVMState m) (accs : List ℚ),
      fitAux ker X orders testOpt fuel p st = some (stf, accs) →
      GoodBox st → GoodBox stf := by
  induction fuel with
  | zero =>
    intro p st stf accs heq h
    simp only [fitAux] at heq
    cases heq
    exact h
  | succ n ih =>
    intro p st stf accs heq h
    have h1 : GoodBox (runPass (orders p) st) := runPass_goodbox (orders p) st h
    simp only [fitAux] at heq
    cases testOpt with
    | none =>
      cases hrec : fitAux ker X orders none n (p + 1) (runPass (orders p) st) with
      | none =>
        simp only [hrec] at heq
        exact Option.noConfusion heq
      | some val =>
        obtain ⟨stf1, accs1⟩ := val
        simp only [hrec] at heq
        cases heq
        exact ih (p + 1) _ _ _ hrec h1
    | some xsys =>
      obtain ⟨xs, ys⟩ := xsys
      simp only at heq
      cases hsc : score ker X (runPass (orders p) st) xs ys with
      | none =>
        simp only [hsc] at heq
        exact Option.noConfusion heq
      | some a =>
        cases hrec : fitAux ker X orders (some (xs, ys)) n (p + 1)
            (runPass (orders p) st) with
        | none =>
          simp only [hsc, hrec] at heq
          exact Option.noConfusion heq
        | some val =>
          obtain ⟨stf1, accs1⟩ := val
          simp only [hsc, hrec] at heq
          cases heq
          exact ih (p + 1) _ _ _ hrec h1

/-! ## Error-cache consistency through the loop -/

theorem create_E_consistent {m : ℕ} (st : SVMState m) :
    Econsistent (create_E st) := fun _ => rfl

theorem upd_consistent {m : ℕ} (st : SVMState m) (i1 i2 : Fin m)
    (h : Econsistent st) : Econsistent ((update_alpha_pair st i1 i2).2) := by
  by_cases hc : i1 = i2 ∨ eta st i1 i2 ≤ 0
  · rw [update_alpha_pair_fail st i1 i2 hc]; exact h
  · push_neg at hc
    rw [update_alpha_pair_success st i1 i2 hc.1 (not_le.mpr hc.2)]
    exact create_E_consistent _

theorem upd_success_consistent {m : ℕ} (st : SVMState m) (i1 i2 : Fin m)
    (h : (update_alpha_pair st i1 i2).1 = true) :
    Econsistent ((update_alpha_pair st i1 i2).2) := by
  by_cases hc : i1 = i2 ∨ eta st i1 i2 ≤ 0
  · rw [update_alpha_pair_fail st i1 i2 hc] at h
    exact absurd h (by simp)
  · push_neg at hc
    rw [update_alpha_pair_success st i1 i2 hc.1 (not_le.mpr hc.2)]
    exact create_E_consistent _

theorem tryList_consistent {m : ℕ} (i1 : Fin m) (l : List (Fin m)) :
    ∀ st : SVMState m, Econsistent st → Econsistent (tryList st i1 l).2.1 := by
  induction l with
  | nil => intro st h; exact h
  | cons j rest ih =>
    intro st h
    simp only [tryList]
    split_ifs with hj hr
    · exact ih st h
    · exact upd_consistent st i1 j h
    · exact ih _ (upd_consistent st i1 j h)

theorem examEx_consistent {m : ℕ} (st : SVMState m) (i1 : Fin m)
    (order : List (Fin m)) (h : Econsistent st) :
    Econsistent (examEx st i1 order).2.1 := by
  unfold examEx
  split_ifs with hv
  · simp only
    cases hsel : argmaxList
        (fun k => |st.E k - (function_g st i1 - st.Y i1)|) (candidates st i1) with
    | none => simp only [hsel]; exact tryList_consistent i1 order st h
    | some j2 =>
      simp only [hsel]
      split_ifs with hr
      · exact upd_consistent st i1 j2 h
      · exact tryList_consistent i1 order _ (upd_consistent st i1 j2 h)
  · exact h

theorem foldl_exam_consistent {m : ℕ} (f : Fin m → List (Fin m))
    (l : List (Fin m)) :
    ∀ st : SVMState m, Econsistent st →
      Econsistent (l.foldl (fun s i => (examEx s i (f i)).2.1) st) := by
  induction l with
  | nil => intro st h; exact h
  | cons j rest ih =>
    intro st h
    exact ih _ (examEx_consistent st j (f j) h)

theorem runPass_consistent {m : ℕ} (orders : Fin m → List (Fin m))
    (st : SVMState m) (h : Econsistent st) : Econsistent (runPass orders st) :=
  foldl_exam_consistent orders (List.finRange m) st h

/-! ## The `K` and `Y` fields are never written after initialization -/

theorem tryList_K {m : ℕ} (i1 : Fin m) (l : List (Fin m)) :
    ∀ st : SVMState m, (tryList st i1 l).2.1.K = st.K := by
  induction l with
  | nil => intro st; rfl
  | cons j rest ih =>
    intro st
    simp only [tryList]
    split_ifs with hj hr
    · exact ih st
    · exact upd_K st i1 j
    · exact (ih _).trans (upd_K st i1 j)

theorem tryList_Y {m : ℕ} (i1 : Fin m) (l : List (Fin m)) :
    ∀ st : SVMState m, (tryList st i1 l).2.1.Y = st.Y := by
  induction l with
  | nil => intro st; rfl
  | cons j rest ih =>
    intro st
    simp only [tryList]
    split_ifs with hj hr
    · exact ih st
    · exact upd_Y st i1 j
    · exact (ih _).trans (upd_Y st i1 j)

theorem examEx_K {m : ℕ} (st : SVMState m) (i1 : Fin m)
    (order : List (Fin m)) : (examEx st i1 order).2.1.K = st.K := by
  unfold examEx
  split_ifs with hv
  · simp only
    cases hsel : argmaxList
        (fun k => |st.E k - (function_g st i1 - st.Y i1)|) (candidates st i1) with
    | none => simp only [hsel]; exact tryList_K i1 order st
    | some j2 =>
      simp only [hsel]
      split_ifs with hr
      · exact upd_K st i1 j2
      · exact (tryList_K i1 order _).trans (upd_K st i1 j2)
  · rfl

theorem examEx_Y {m : ℕ} (st : SVMState m) (i1 : Fin m)
    (order : List (Fin m)) : (examEx st i1 order).2.1.Y = st.Y := by
  unfold examEx
  split_ifs with hv
  · simp only
    cases hsel : argmaxList
        (fun k => |st.E k - (function_g st i1 - st.Y i1)|) (candidates st i1) with
    | none => simp only [hsel]; exact tryList_Y i1 order st
    | some j2 =>
      simp only [hsel]
      split_ifs with hr
      · exact upd_Y st i1 j2
      · exact (tryList_Y i1 order _).trans (upd_Y st i1 j2)
  · rfl

theorem foldl_exam_K {m : ℕ} (f : Fin m → List (Fin m)) (l : List (Fin m)) :
    ∀ st : SVMState m,
      (l.foldl (fun s i => (examEx s i (f i)).2.1) st).K = st.K := by
  induction l with
  | nil => intro st; rfl
  | cons j rest ih =>
    intro st
    exact (ih _).trans (examEx_K st j (f j))

theorem runPass_K {m : ℕ} (orders : Fin m → List (Fin m)) (st : SVMState m) :
    (runPass orders st).K = st.K :=
  foldl_exam_K orders (List.finRange m) st

theorem passFrom_K {m : ℕ} (orders : ℕ → Fin m → List (Fin m)) (p : ℕ)
    (st : SVMState m) : ∀ k, (passFrom orders p st k).K = st.K := by
  intro k
  induction k with
  | zero => rfl
  | succ n ih => exact (runPass_K _ _).trans ih

/-! ## Selection (argmax) lemmas -/

theorem argmaxList_none {m : ℕ} (f : Fin m → ℚ) :
    ∀ l : List (Fin m), argmaxList f l = none → l = [] := by
  intro l h
  cases l with
  | nil => rfl
  | cons a rest =>
    simp only [argmaxList] at h
    cases hr : argmaxList f rest with
    | none => rw [hr] at h; exact Option.noConfusion h
    | some k =>
      simp only [hr] at h
      split_ifs at h

theorem argmaxList_spec {m : ℕ} (f : Fin m → ℚ) :
    ∀ (l : List (Fin m)) (j : Fin m), argmaxList f l = some j →
      j ∈ l ∧ ∀ k ∈ l, f k ≤ f j := by
  intro l
  induction l with
  | nil => intro j h; exact absurd h (by simp [argmaxList])
  | cons a rest ih =>
    intro j h
    simp only [argmaxList] at h
    cases hr : argmaxList f rest with
    | none =>
      simp only [hr] at h
      have hrest : rest = [] := argmaxList_none f rest hr
      cases h
      subst hrest
      refine ⟨List.mem_cons_self a [], ?_⟩
      intro k hk
      rcases List.mem_cons.mp hk with h' | h'
      · subst h'; exact le_refl _
      · exact absurd h' (List.not_mem_nil k)
    | some k0 =>
      simp only [hr] at h
      obtain ⟨hmem, hmax⟩ := ih k0 hr
      by_cases hgt : f k0 > f a
      · rw [if_pos hgt] at h
        cases h
        refine ⟨List.mem_cons_of_mem _ hmem, ?_⟩
        intro k hk
        rcases List.mem_cons.mp hk with h' | h'
        · subst h'; exact hgt.le
        · exact hmax k h'
      · rw [if_neg hgt] at h
        cases h
        refine ⟨List.mem_cons_self _ _, ?_⟩
        intro k hk
        rcases List.mem_cons.mp hk with h' | h'
        · subst h'; exact le_refl _
        · exact le_trans (hmax k h') (not_lt.mp hgt)

/-! ## Gram matrix and cache-consistency lemmas -/

theorem computer_product_matrixQ_symm {V : Type} {m : ℕ} (ker : V → V → ℚ)
    (X : Fin m → V) (i j : Fin m) :
    computer_product_matrixQ ker X i j = computer_product_matrixQ ker X j i := by
  unfold computer_product_matrixQ
  split_ifs with h1 h2 h2
  · have hij : i = j := Fin.ext (le_antisymm h1 h2)
    rw [hij]
  · rfl
  · rfl
  · omega

theorem fresh_eq_cached {m : ℕ} (st : SVMState m) (hE : Econsistent st)
    (hK : ∀ i j, st.K i j = st.K j i) (i1 : Fin m) :
    function_g st i1 - st.Y i1 = st.E i1 := by
  rw [hE i1, function_g]
  have hsum : ∑ j, st.alpha j * st.Y j * st.K i1 j
      = ∑ j, st.alpha j * st.Y j * st.K j i1 :=
    Finset.sum_congr rfl fun j _ => by rw [hK i1 j]
  rw [hsum]
  ring

theorem init_consistent {V : Type} {m : ℕ} (C : ℚ) (ker : V → V → ℚ)
    (X : Fin m → V) (Y : Fin m → ℚ) :
    Econsistent (init_args C ker X Y) := by
  intro i
  show (0 : ℚ) - Y i = (∑ _j : Fin m, (0 : ℚ) * _ * _) + 0 - Y i
  simp

theorem stateAfter_consistent {V : Type} {m : ℕ} (C : ℚ) (ker : V → V → ℚ)
    (orders : ℕ → Fin m → List (Fin m)) (X : Fin m → V) (Y : Fin m → ℚ)
    (k : ℕ) : Econsistent (stateAfter C ker orders X Y k) := by
  induction k with
  | zero => exact init_consistent C ker X Y
  | succ n ih => exact runPass_consistent _ _ ih

theorem stateAfter_K {V : Type} {m : ℕ} (C : ℚ) (ker : V → V → ℚ)
    (orders : ℕ → Fin m → List (Fin m)) (X : Fin m → V) (Y : Fin m → ℚ)
    (k : ℕ) :
    (stateAfter C ker orders X Y k).K = computer_product_matrixQ ker X := by
  induction k with
  | zero => rfl
  | succ n ih => exact (runPass_K _ _).trans ih

/-! ## The pass chain of `fit` -/

theorem passFrom_succ_left {m : ℕ} (orders : ℕ → Fin m → List (Fin m))
    (p : ℕ) (st : SVMState m) (k : ℕ) :
    passFrom orders p st (k + 1)
      = passFrom orders (p + 1) (runPass (orders p) st) k := by
  induction k with
  | zero => rfl
  | succ n ih =>
    show runPass (orders (p + (n + 1))) (passFrom orders p st (n + 1))
      = runPass (orders (p + 1 + n))
          (passFrom orders (p + 1) (runPass (orders p) st) n)
    rw [ih]
    have harg : p + (n + 1) = p + 1 + n := by omega
    rw [harg]

theorem stateAfter_eq_passFrom {V : Type} {m : ℕ} (C : ℚ) (ker : V → V → ℚ)
    (orders : ℕ → Fin m → List (Fin m)) (X : Fin m → V) (Y : Fin m → ℚ)
    (k : ℕ) :
    stateAfter C ker orders X Y k
      = passFrom orders 0 (init_args C ker X Y) k := by
  induction k with
  | zero => rfl
  | succ n ih =>
    show runPass (orders n) (stateAfter C ker orders X Y n)
      = runPass (orders (0 + n)) (passFrom orders 0 (init_args C ker X Y) n)
    rw [ih, Nat.zero_add]

theorem score_nonempty {V : Type} {m : ℕ} (ker : V → V → ℚ) (X : Fin m → V)
    (st : SVMState m) (xs : List V) (ys : List ℚ) (hxs : xs ≠ []) :
    score ker X st xs ys
      = some ((rightCount ker X st xs ys : ℚ) / (xs.length : ℚ)) := by
  rw [score, if_neg fun h => hxs (List.length_eq_zero.mp h)]

theorem fitAux_none_char {V : Type} {m : ℕ} (ker : V → V → ℚ)
    (X : Fin m → V) (orders : ℕ → Fin m → List (Fin m)) :
    ∀ (fuel p : ℕ) (st : SVMState m),
      fitAux ker X orders none fuel p st
        = some (passFrom orders p st fuel, []) := by
  intro fuel
  induction fuel with
  | zero => intro p st; rfl
  | succ n ih =>
    intro p st
    simp only [fitAux]
    rw [ih (p + 1) (runPass (orders p) st)]
    rw [passFrom_succ_left]

theorem fitAux_some_char {V : Type} {m : ℕ} (ker : V → V → ℚ)
    (X : Fin m → V) (orders : ℕ → Fin m → List (Fin m)) (xs : List V)
    (ys : List ℚ) (hxs : xs ≠ []) :
    ∀ (fuel p : ℕ) (st : SVMState m), ∃ l : List ℚ,
      fitAux ker X orders (some (xs, ys)) fuel p st
          = some (passFrom orders p st fuel, l) ∧
      l.length = fuel ∧
      ∀ (k : ℕ) (hk : k < l.length),
        l.get ⟨k, hk⟩
          = (rightCount ker X (passFrom orders p st (k + 1)) xs ys : ℚ)
              / (xs.length : ℚ) := by
  intro fuel
  induction fuel with
  | zero =>
    intro p st
    refine ⟨[], rfl, rfl, ?_⟩
    intro k hk
    exact absurd hk (by simp)
  | succ n ih =>
    intro p st
    obtain ⟨l1, hfit, hlen, hget⟩ := ih (p + 1) (runPass (orders p) st)
    refine ⟨(rightCount ker X (runPass (orders p) st) xs ys : ℚ)
      / (xs.length : ℚ) :: l1, ?_, by simp [hlen], ?_⟩
    · simp only [fitAux]
      rw [score_nonempty ker X _ xs ys hxs, hfit, passFrom_succ_left]
    · intro k hk
      cases k with
      | zero => rfl
      | succ k0 =>
        have hk0 : k0 < l1.length := by
          simp at hk
          omega
        show l1.get ⟨k0, hk0⟩ = _
        rw [hget k0 hk0, passFrom_succ_left orders p st (k0 + 1)]

/-! ## Behaviour of `examine_example` -/

theorem examEx_no_violation {m : ℕ} (st : SVMState m) (i1 : Fin m)
    (order : List (Fin m)) (h : ¬ kktViolated st i1) :
    examEx st i1 order = (false, st, []) := by
  unfold examEx
  rw [if_neg h]

theorem examEx_first_attempt {m : ℕ} (st : SVMState m) (i1 : Fin m)
    (order : List (Fin m)) (hv : kktViolated st i1)
    (hc : candidates st i1 ≠ []) :
    ∃ j, (examEx st i1 order).2.2.head? = some j ∧ j ∈ candidates st i1 ∧
      ∀ k ∈ candidates st i1,
        |st.E k - (function_g st i1 - st.Y i1)|
          ≤ |st.E j - (function_g st i1 - st.Y i1)| := by
  cases hsel : argmaxList
      (fun k => |st.E k - (function_g st i1 - st.Y i1)|) (candidates st i1) with
  | none => exact absurd (argmaxList_none _ _ hsel) hc
  | some j =>
    obtain ⟨hmem, hmax⟩ := argmaxList_spec _ _ _ hsel
    refine ⟨j, ?_, hmem, hmax⟩
    unfold examEx
    rw [if_pos hv]
    simp only [hsel]
    split_ifs with hr <;> rfl

/-! ## `C` is never written after initialization -/

theorem tryList_C {m : ℕ} (i1 : Fin m) (l : List (Fin m)) :
    ∀ st : SVMState m, (tryList st i1 l).2.1.C = st.C := by
  induction l with
  | nil => intro st; rfl
  | cons j rest ih =>
    intro st
    simp only [tryList]
    split_ifs with hj hr
    · exact ih st
    · exact upd_C st i1 j
    · exact (ih _).trans (upd_C st i1 j)

theorem examEx_C {m : ℕ} (st : SVMState m) (i1 : Fin m)
    (order : List (Fin m)) : (examEx st i1 order).2.1.C = st.C := by
  unfold examEx
  split_ifs with hv
  · simp only
    cases hsel : argmaxList
        (fun k => |st.E k - (function_g st i1 - st.Y i1)|) (candidates st i1) with
    | none => simp only [hsel]; exact tryList_C i1 order st
    | some j2 =>
      simp only [hsel]
      split_ifs with hr
      · exact upd_C st i1 j2
      · exact (tryList_C i1 order _).trans (upd_C st i1 j2)
  · rfl

theorem foldl_exam_C {m : ℕ} (f : Fin m → List (Fin m)) (l : List (Fin m)) :
    ∀ st : SVMState m,
      (l.foldl (fun s i => (examEx s i (f i)).2.1) st).C = st.C := by
  induction l with
  | nil => intro st; rfl
  | cons j rest ih =>
    intro st
    exact (ih _).trans (examEx_C st j (f j))

theorem runPass_C {m : ℕ} (orders : Fin m → List (Fin m)) (st : SVMState m) :
    (runPass orders st).C = st.C :=
  foldl_exam_C orders (List.finRange m) st

theorem passFrom_C {m : ℕ} (orders : ℕ → Fin m → List (Fin m)) (p : ℕ)
    (st : SVMState m) : ∀ k, (passFrom orders p st k).C = st.C := by
  intro k
  induction k with
  | zero => rfl
  | succ n ih => exact (runPass_C _ _).trans ih

theorem fitAux_state_char {V : Type} {m : ℕ} (ker : V → V → ℚ)
    (X : Fin m → V) (orders : ℕ → Fin m → List (Fin m))
    (testOpt : Option (List V × List ℚ)) (fuel : ℕ) :
    ∀ (p : ℕ) (st stf : SVMState m) (accs : List ℚ),
      fitAux ker X orders testOpt fuel p st = some (stf, accs) →
      stf = passFrom orders p st fuel := by
  induction fuel with
  | zero =>
    intro p st stf accs heq
    simp only [fitAux] at heq
    cases heq
    rfl
  | succ n ih =>
    intro p st stf accs heq
    simp only [fitAux] at heq
    cases testOpt with
    | none =>
      cases hrec : fitAux ker X orders none n (p + 1) (runPass (orders p) st) with
      | none =>
        simp only [hrec] at heq
        exact Option.noConfusion heq
      | some val =>
        obtain ⟨stf1, accs1⟩ := val
        simp only [hrec] at heq
        cases heq
        rw [ih (p + 1) _ _ _ hrec, passFrom_succ_left]
    | some xsys =>
      obtain ⟨xs, ys⟩ := xsys
      simp only at heq
      cases hsc : score ker X (runPass (orders p) st) xs ys with
      | none =>
        simp only [hsc] at heq
        exact Option.noConfusion heq
      | some a =>
        cases hrec : fitAux ker X orders (some (xs, ys)) n (p + 1)
            (runPass (orders p) st) with
        | none =>
          simp only [hsc, hrec] at heq
          exact Option.noConfusion heq
        | some val =>
          obtain ⟨stf1, accs1⟩ := val
          simp only [hsc, hrec] at heq
          cases heq
          rw [ih (p + 1) _ _ _ hrec, passFrom_succ_left]

/-! ## Kernel symmetry (`ℝ` layer) -/

theorem dotR_comm {n : ℕ} (x1 x2 : Fin n → ℝ) : dotR x1 x2 = dotR x2 x1 :=
  Finset.sum_congr rfl fun _ _ => mul_comm _ _

theorem kernel_symm {n : ℕ} (name : String) (x1 x2 : Fin n → ℝ) :
    kernel name x1 x2 = kernel name x2 x1 := by
  unfold kernel
  split_ifs
  · exact dotR_comm x1 x2
  · rw [dotR_comm x1 x2]
  · have hsum : ∑ i, (x1 i - x2 i) ^ 2 = ∑ i, (x2 i - x1 i) ^ 2 :=
      Finset.sum_congr rfl fun v _ => by ring
    rw [hsum]
  · rfl

/-! ## `score` bounds -/

theorem rightCount_le_length {V : Type} {m : ℕ} (ker : V → V → ℚ)
    (X : Fin m → V) (st : SVMState m) :
    ∀ (xs : List V) (ys : List ℚ),
      rightCount ker X st xs ys ≤ xs.length := by
  intro xs
  induction xs with
  | nil => intro ys; cases ys <;> simp [rightCount]
  | cons x xs ih =>
    intro ys
    cases ys with
    | nil => simp [rightCount]
    | cons y ys =>
      have h := ih ys
      simp only [rightCount, List.length_cons]
      split_ifs <;> omega

/-! ## The spec's analytic step agrees with the source's quantities -/

theorem specAnalyticStep_eq {m : ℕ} (st : SVMState m) (i1 i2 : Fin m) :
    specAnalyticStep st i1 i2
      = (alpha1new st i1 i2, alpha2new st i1 i2, bnew st i1 i2) := by
  have hL : (if st.Y i1 = st.Y i2 then max 0 (st.alpha i1 + st.alpha i2 - st.C)
      else max 0 (st.alpha i2 - st.alpha i1)) = (boundsLH st i1 i2).1 := by
    unfold boundsLH; split_ifs <;> rfl
  have hH : (if st.Y i1 = st.Y i2 then min st.C (st.alpha i1 + st.alpha i2)
      else min st.C (st.C + st.alpha i2 - st.alpha i1))
        = (boundsLH st i1 i2).2 := by
    unfold boundsLH; split_ifs <;> rfl
  have he : st.K i1 i1 + st.K i2 i2 - 2 * st.K i1 i2 = eta st i1 i2 := rfl
  simp only [specAnalyticStep]
  rw [hL, hH, he]
  rfl

/-- `score` on an empty evaluation set: the guardless division is a
`ZeroDivisionError` in Python, `none` here. -/
theorem score_nil {V : Type} {m : ℕ} (ker : V → V → ℚ) (X : Fin m → V)
    (st : SVMState m) (ys : List ℚ) : score ker X st [] ys = none := rfl

/-! ## Claims -/

/-- C1: for every call `update_alpha_pair(i1, i2)` with `i1 ≠ i2` and
`eta = K[i1][i1] + K[i2][i2] − 2·K[i1][i2] > 0`, the call succeeds and
the committed state is exactly the spec's analytic step
(`specAnalyticStep`, built from the spec's wording): `α_i2` is the
cached-error step clipped to `[L, H]`, `α_i1` is
`α1_old + y1·y2·(α2_old − α2_new)`, the bias is `b1`/`b2`/their mean
according to which new multiplier is strictly interior, and every
multiplier other than `i1`, `i2` is unchanged. -/
theorem c1_update_is_spec_step {m : ℕ} (st : SVMState m) (i1 i2 : Fin m)
    (hne : i1 ≠ i2) (heta : 0 < eta st i1 i2) :
    (update_alpha_pair st i1 i2).1 = true ∧
    (update_alpha_pair st i1 i2).2.alpha i1 = (specAnalyticStep st i1 i2).1 ∧
    (update_alpha_pair st i1 i2).2.alpha i2 = (specAnalyticStep st i1 i2).2.1 ∧
    (update_alpha_pair st i1 i2).2.b = (specAnalyticStep st i1 i2).2.2 ∧
    ∀ k, k ≠ i1 → k ≠ i2 →
      (update_alpha_pair st i1 i2).2.alpha k = st.alpha k := by
  rw [update_alpha_pair_success st i1 i2 hne (not_le.mpr heta),
    specAnalyticStep_eq]
  refine ⟨rfl, ?_, ?_, rfl, ?_⟩
  · show Function.update
      (Function.update st.alpha i1 (alpha1new st i1 i2)) i2
        (alpha2new st i1 i2) i1 = _
    rw [Function.update_noteq hne, Function.update_same]
  · show Function.update
      (Function.update st.alpha i1 (alpha1new st i1 i2)) i2
        (alpha2new st i1 i2) i2 = _
    rw [Function.update_same]
  · intro k hk1 hk2
    show Function.update
      (Function.update st.alpha i1 (alpha1new st i1 i2)) i2
        (alpha2new st i1 i2) k = st.alpha k
    rw [Function.update_noteq hk2, Function.update_noteq hk1]

/-- Witness for C1 at a concrete two-sample state. -/
theorem c1_update_is_spec_step_witness :
    (0 : Fin 2) ≠ 1 ∧ 0 < eta noStepState 0 1 ∧
      (update_alpha_pair noStepState 0 1).1 = true ∧
      (update_alpha_pair noStepState 0 1).2.alpha 0
        = (specAnalyticStep noStepState 0 1).1 := by
  have h1 : (0 : Fin 2) ≠ 1 := by decide
  have h2 : 0 < eta noStepState 0 1 := by norm_num [eta, noStepState]
  obtain ⟨ha, hb, _, _, _⟩ := c1_update_is_spec_step noStepState 0 1 h1 h2
  exact ⟨h1, h2, ha, hb⟩

/-- C2: from a state with `C > 0` and every multiplier in `[0, C]`
(labels `±1` as the data model prescribes), every multiplier still lies
in `[0, C]` after `update_alpha_pair`; and since `fit` initializes the
multipliers to zero, whenever its pass loop completes every multiplier of
the final state lies in `[0, C]`. -/
theorem c2_box_invariant :
    (∀ (m : ℕ) (st : SVMState m) (i1 i2 : Fin m),
      0 < st.C → LabelsOK st → BoxOK st →
      BoxOK ((update_alpha_pair st i1 i2).2)) ∧
    (∀ (V : Type) (m : ℕ) (C : ℚ) (max_iter : ℕ) (ker : V → V → ℚ)
      (orders : ℕ → Fin m → List (Fin m)) (X : Fin m → V) (Y : Fin m → ℚ)
      (testOpt : Option (List V × List ℚ)) (stf : SVMState m)
      (accs : List ℚ),
      0 < C → (∀ k, Y k = 1 ∨ Y k = -1) →
      fitAux ker X orders testOpt max_iter 0 (init_args C ker X Y)
        = some (stf, accs) →
      ∀ k, 0 ≤ stf.alpha k ∧ stf.alpha k ≤ C) := by
  constructor
  · exact fun m st i1 i2 hC hY hB => update_preserves_box st i1 i2 hC hY hB
  · intro V m C max_iter ker orders X Y testOpt stf accs hC hY heq k
    have hinit : GoodBox (init_args C ker X Y) :=
      ⟨hC, hY, fun _ => ⟨le_refl 0, hC.le⟩⟩
    have hgood := fitAux_goodbox ker X orders testOpt max_iter 0 _ stf accs
      heq hinit
    have hCf : stf.C = C := by
      rw [fitAux_state_char ker X orders testOpt max_iter 0 _ stf accs heq]
      exact passFrom_C orders 0 _ max_iter
    have hbox := hgood.2.2 k
    rw [hCf] at hbox
    exact hbox

/-- Witness for C2 at a concrete two-sample state. -/
theorem c2_box_invariant_witness :
    0 < noStepState.C ∧
      0 ≤ (update_alpha_pair noStepState 0 1).2.alpha 0 ∧
      (update_alpha_pair noStepState 0 1).2.alpha 0
        ≤ (update_alpha_pair noStepState 0 1).2.C := by
  have hC : 0 < noStepState.C := by norm_num [noStepState]
  have hY : LabelsOK noStepState := fun _ => Or.inl rfl
  have hB : BoxOK noStepState := fun _ => by norm_num [noStepState]
  have h := (c2_box_invariant.1 2 noStepState 0 1 hC hY hB) 0
  exact ⟨hC, h.1, h.2⟩

/-- C3: `update_alpha_pair(i1, i2)` reports failure iff `i1 = i2` or
`eta ≤ 0`; every failure leaves the whole state (multipliers, bias,
error cache) unchanged; otherwise it commits and reports success, and —
with no minimum-step check — a success can leave the multipliers
numerically unchanged, as at the concrete state `noStepState`. -/
theorem c3_failure_iff {m : ℕ} (st : SVMState m) (i1 i2 : Fin m) :
    ((update_alpha_pair st i1 i2).1 = false ↔ i1 = i2 ∨ eta st i1 i2 ≤ 0) ∧
    ((update_alpha_pair st i1 i2).1 = false →
      (update_alpha_pair st i1 i2).2 = st) ∧
    ((update_alpha_pair noStepState 0 1).1 = true ∧
      (update_alpha_pair noStepState 0 1).2.alpha 0 = noStepState.alpha 0 ∧
      (update_alpha_pair noStepState 0 1).2.alpha 1 = noStepState.alpha 1) := by
  have hiff : (update_alpha_pair st i1 i2).1 = false ↔
      i1 = i2 ∨ eta st i1 i2 ≤ 0 := by
    constructor
    · intro hf
      by_contra hcon
      push_neg at hcon
      rw [update_alpha_pair_success st i1 i2 hcon.1 (not_le.mpr hcon.2)] at hf
      simp at hf
    · intro h
      rw [update_alpha_pair_fail st i1 i2 h]
  refine ⟨hiff, ?_, ?_⟩
  · intro hf
    rw [update_alpha_pair_fail st i1 i2 (hiff.mp hf)]
  · have hne : (0 : Fin 2) ≠ 1 := by decide
    have heta : ¬ eta noStepState 0 1 ≤ 0 := by norm_num [eta, noStepState]
    rw [update_alpha_pair_success noStepState 0 1 hne heta]
    refine ⟨rfl, ?_, ?_⟩
    · show Function.update
        (Function.update noStepState.alpha 0 (alpha1new noStepState 0 1)) 1
          (alpha2new noStepState 0 1) 0 = noStepState.alpha 0
      rw [Function.update_noteq hne, Function.update_same]
      norm_num [alpha1new, alpha2new, boundsLH, clip_alpha, eta, noStepState]
    · show Function.update
        (Function.update noStepState.alpha 0 (alpha1new noStepState 0 1)) 1
          (alpha2new noStepState 0 1) 1 = noStepState.alpha 1
      rw [Function.update_same]
      norm_num [alpha2new, boundsLH, clip_alpha, eta, noStepState]

/-- Witness for C3: a failing call (equal indices), fully atomic. -/
theorem c3_failure_iff_witness :
    (update_alpha_pair noStepState 0 0).1 = false ∧
      (update_alpha_pair noStepState 0 0).2 = noStepState := by
  have h := c3_failure_iff noStepState 0 0
  have hf : (update_alpha_pair noStepState 0 0).1 = false := h.1.mpr (Or.inl rfl)
  exact ⟨hf, h.2.1 hf⟩

/-- C4: the error cache is always consistent with the current
multipliers and bias: at initialization `E_i = b − y_i = −y_i`; after
every successful pair update `E = (α ⊙ y)·K + b·1 − y` for the committed
`α`, `b`; consistency is preserved by every `examine_example` call; for a
consistent state with symmetric `K` the freshly computed
`E1 = g(x_i1) − y_i1` equals the cached `E[i1]`; and that equality holds
at the start of every KKT check during `fit` (arbitrary prefix of an
arbitrary pass). -/
theorem c4_error_cache_consistent :
    (∀ (V : Type) (m : ℕ) (C : ℚ) (ker : V → V → ℚ) (X : Fin m → V)
        (Y : Fin m → ℚ) (i : Fin m),
      (init_args C ker X Y).E i = -(Y i) ∧ (init_args C ker X Y).b = 0) ∧
    (∀ (m : ℕ) (st : SVMState m) (i1 i2 : Fin m),
      (update_alpha_pair st i1 i2).1 = true →
      Econsistent ((update_alpha_pair st i1 i2).2)) ∧
    (∀ (m : ℕ) (st : SVMState m) (i1 : Fin m) (order : List (Fin m)),
      Econsistent st → Econsistent (examEx st i1 order).2.1) ∧
    (∀ (m : ℕ) (st : SVMState m), Econsistent st →
      (∀ i j, st.K i j = st.K j i) →
      ∀ i1, function_g st i1 - st.Y i1 = st.E i1) ∧
    (∀ (V : Type) (m : ℕ) (C : ℚ) (ker : V → V → ℚ)
        (orders : ℕ → Fin m → List (Fin m)) (X : Fin m → V) (Y : Fin m → ℚ)
        (k : ℕ) (l : List (Fin m)) (i1 : Fin m),
      function_g (midPassState C ker orders X Y k l) i1
          - (midPassState C ker orders X Y k l).Y i1
        = (midPassState C ker orders X Y k l).E i1) := by
  refine ⟨?_, ?_, ?_, ?_, ?_⟩
  · intro V m C ker X Y i
    refine ⟨?_, rfl⟩
    show (0 : ℚ) - Y i = -(Y i)
    ring
  · exact fun m st i1 i2 h => upd_success_consistent st i1 i2 h
  · exact fun m st i1 order h => examEx_consistent st i1 order h
  · exact fun m st hE hK i1 => fresh_eq_cached st hE hK i1
  · intro V m C ker orders X Y k l i1
    unfold midPassState
    have hE := foldl_exam_consistent (orders k) l _
      (stateAfter_consistent C ker orders X Y k)
    have hKmid := (foldl_exam_K (orders k) l
      (stateAfter C ker orders X Y k)).trans (stateAfter_K C ker orders X Y k)
    refine fresh_eq_cached _ hE ?_ i1
    intro i j
    rw [hKmid]
    exact computer_product_matrixQ_symm ker X i j

/-- Witness for C4 at a concrete consistent one-sample state. -/
theorem c4_error_cache_consistent_witness :
    function_g exampleState 0 - exampleState.Y 0 = exampleState.E 0 := by
  have hE : Econsistent exampleState := by
    intro i
    norm_num [exampleState, Fin.sum_univ_one]
  have hK : ∀ i j, exampleState.K i j = exampleState.K j i := fun _ _ => rfl
  exact c4_error_cache_consistent.2.2.2.1 1 exampleState hE hK 0

/-- C5 (amended): `fit` performs exactly `max_iter` passes, each pass
calling the KKT check once per training index `0..m-1` in ascending
order (`runPass` folds `examine_example` over `finRange` and the trace
entries are the scores of the successive `stateAfter` chain).  It
returns the empty list when no evaluation set is supplied, and for a
supplied NON-EMPTY evaluation set a list of exactly `max_iter` entries
whose `k`-th entry is the exact fraction of evaluation samples on which
`predict` equals the true label after pass `k+1`; predictions
`[1, -1, 1, 1]` against labels `[1, 1, 1, 1]` give `3/4`.  (A supplied
but empty evaluation set instead crashes in `score` with a division by
zero — see the counterexample.) -/
theorem c5_fit_trace {V : Type} {m : ℕ} (C : ℚ) (max_iter : ℕ)
    (ker : V → V → ℚ) (orders : ℕ → Fin m → List (Fin m)) (X : Fin m → V)
    (Y : Fin m → ℚ) :
    fit C max_iter ker orders X Y none = some [] ∧
    (∀ (xs : List V) (ys : List ℚ), xs ≠ [] →
      ∃ l : List ℚ,
        fit C max_iter ker orders X Y (some (xs, ys)) = some l ∧
        l.length = max_iter ∧
        ∀ (k : ℕ) (hk : k < l.length),
          l.get ⟨k, hk⟩
            = (rightCount ker X (stateAfter C ker orders X Y (k + 1)) xs ys : ℚ)
                / (xs.length : ℚ)) ∧
    score (fun a b : ℚ => a * b) (fun _ : Fin 1 => (1 : ℚ)) exampleState
        [1, -1, 1, 1] [1, 1, 1, 1] = some (3 / 4) := by
  refine ⟨?_, ?_, ?_⟩
  · rw [fit, fitAux_none_char]
  · intro xs ys hxs
    obtain ⟨l, hfit, hlen, hget⟩ := fitAux_some_char ker X orders xs ys hxs
      max_iter 0 (init_args C ker X Y)
    refine ⟨l, ?_, hlen, ?_⟩
    · rw [fit, hfit]
    · intro k hk
      rw [stateAfter_eq_passFrom]
      exact hget k hk
  · norm_num [score, rightCount, predictQ, exampleState, Fin.sum_univ_one]

/-- Counterexample to C5 as frozen: with a supplied but EMPTY evaluation
set, `fit` crashes in `score` (division by zero, modelled as `none`)
instead of returning a `max_iter`-length accuracy list. -/
theorem c5_fit_trace_counterexample :
    fit (V := ℚ) (m := 1) 1 1 (fun a b => a * b) (fun _ _ => [0])
      (fun _ => 1) (fun _ => 1) (some ([], [1])) = none := by
  simp [fit, fitAux, score_nil]

/-- Witness for C5 on a concrete one-sample instance with a non-empty
evaluation set. -/
theorem c5_fit_trace_witness :
    ∃ l : List ℚ,
      fit (V := ℚ) (m := 1) 1 2 (fun a b => a * b) (fun _ _ => [0])
          (fun _ => 1) (fun _ => 1) (some ([1], [1])) = some l ∧
      l.length = 2 ∧
      ∀ (k : ℕ) (hk : k < l.length),
        l.get ⟨k, hk⟩
          = (rightCount (fun a b : ℚ => a * b) (fun _ : Fin 1 => (1 : ℚ))
              (stateAfter 1 (fun a b : ℚ => a * b) (fun _ _ => [0])
                (fun _ : Fin 1 => (1 : ℚ)) (fun _ => 1) (k + 1)) [1] [1] : ℚ)
              / (([1] : List ℚ).length : ℚ) :=
  (c5_fit_trace 1 2 (fun a b : ℚ => a * b) (fun _ _ => [0])
    (fun _ : Fin 1 => (1 : ℚ)) (fun _ => 1)).2.1 [1] [1] (by simp)

/-- C6: when the KKT check at `i1` finds no violation, `examine_example`
returns "no update", leaves the state unchanged and attempts no pair
(empty attempt trace); when it finds a violation and the non-bound
candidate set excluding `i1` is non-empty, the first attempted pair
update is with a candidate maximizing `|E_j − E1|` (`E_j` from the
cache, `E1` freshly recomputed). -/
theorem c6_tier1_selection {m : ℕ} (st : SVMState m) (i1 : Fin m)
    (order : List (Fin m)) :
    (¬ kktViolated st i1 → examEx st i1 order = (false, st, [])) ∧
    (kktViolated st i1 → candidates st i1 ≠ [] →
      ∃ j, (examEx st i1 order).2.2.head? = some j ∧ j ∈ candidates st i1 ∧
        ∀ k ∈ candidates st i1,
          |st.E k - (function_g st i1 - st.Y i1)|
            ≤ |st.E j - (function_g st i1 - st.Y i1)|) :=
  ⟨examEx_no_violation st i1 order, examEx_first_attempt st i1 order⟩

/-- Witness for C6 at a concrete violating state with one non-bound
candidate. -/
theorem c6_tier1_selection_witness :
    ∃ j, (examEx violState 0 [0, 1]).2.2.head? = some j ∧
      j ∈ candidates violState 0 ∧
      ∀ k ∈ candidates violState 0,
        |violState.E k - (function_g violState 0 - violState.Y 0)|
          ≤ |violState.E j - (function_g violState 0 - violState.Y 0)| := by
  have hv : kktViolated violState 0 := by
    norm_num [kktViolated, function_g, violState, tol, Fin.sum_univ_two]
  have hc : candidates violState 0 ≠ [] := by
    norm_num [candidates, violState, tol, List.finRange, List.filter]
  exact (c6_tier1_selection violState 0 [0, 1]).2 hv hc

/-- C7: `predict` returns `+1` exactly when the raw decision value
`b + Σ_j α_j·y_j·kernel(x_j, x)` is strictly positive and `-1` otherwise
(zero maps to `-1`); `decision_function` returns that same raw value
unthresholded, so `decision_function(x) > 0 ↔ predict(x) = +1`. -/
theorem c7_predict_sign {n m : ℕ} (name : String) (alpha Y : Fin m → ℝ)
    (b : ℝ) (X : Fin m → Fin n → ℝ) (data : Fin n → ℝ) :
    (predict name alpha Y b X data = 1 ↔
      decision_function name alpha Y b X data > 0) ∧
    (predict name alpha Y b X data = -1 ↔
      ¬ decision_function name alpha Y b X data > 0) ∧
    decision_function name alpha Y b X data
      = rawDecision name alpha Y b X data := by
  unfold predict decision_function
  split_ifs with h
  · refine ⟨⟨fun _ => h, fun _ => rfl⟩, ⟨fun h1 => ?_, fun h2 => absurd h h2⟩,
      rfl⟩
    norm_num at h1
  · refine ⟨⟨fun h1 => ?_, fun h2 => absurd h2 h⟩, ⟨fun _ => h, fun _ => rfl⟩,
      rfl⟩
    norm_num at h1

/-- C8: after construction, the Gram matrix is exactly symmetric (the
upper triangle is mirrored) and every entry equals
`kernel(x_i, x_j)` — for `i > j` via the symmetry of every configured
kernel variant. -/
theorem c8_gram_symmetric {n m : ℕ} (name : String) (X : Fin m → Fin n → ℝ)
    (i j : Fin m) :
    computer_product_matrix name X i j = computer_product_matrix name X j i ∧
    computer_product_matrix name X i j = kernel name (X i) (X j) := by
  constructor
  · unfold computer_product_matrix
    split_ifs with h1 h2 h2
    · have hij : i = j := Fin.ext (le_antisymm h1 h2)
      rw [hij]
    · rfl
    · rfl
    · omega
  · unfold computer_product_matrix
    split_ifs with h1
    · rfl
    · exact kernel_symm name (X j) (X i)

/-- C9: every kernel name outside `{linear, poly, rbf}` silently yields
the constant `0` for every pair, so every Gram entry is `0` and the raw
decision value degenerates to the bias. -/
theorem c9_unknown_kernel_zero {n m : ℕ} (name : String)
    (h1 : name ≠ "linear") (h2 : name ≠ "poly") (h3 : name ≠ "rbf")
    (x1 x2 : Fin n → ℝ) (X : Fin m → Fin n → ℝ) (alpha Y : Fin m → ℝ)
    (b : ℝ) (data : Fin n → ℝ) (i j : Fin m) :
    kernel name x1 x2 = 0 ∧
    computer_product_matrix name X i j = 0 ∧
    rawDecision name alpha Y b X data = b := by
  have hk : ∀ a c : Fin n → ℝ, kernel name a c = 0 := fun a c => by
    unfold kernel
    rw [if_neg h1, if_neg h2, if_neg h3]
  refine ⟨hk x1 x2, ?_, ?_⟩
  · unfold computer_product_matrix
    split_ifs <;> exact hk _ _
  · unfold rawDecision
    simp [hk]

/-- Witness for C9 at the unrecognized name `"sigmoid"`. -/
theorem c9_unknown_kernel_zero_witness :
    kernel "sigmoid" (fun _ : Fin 1 => (0 : ℝ)) (fun _ => 0) = 0 ∧
      rawDecision (n := 1) (m := 1) "sigmoid" (fun _ => 1) (fun _ => 1) 5
        (fun _ _ => 0) (fun _ => 0) = 5 := by
  have h := c9_unknown_kernel_zero (n := 1) (m := 1) "sigmoid"
    (by decide) (by decide) (by decide)
    (fun _ => 0) (fun _ => 0) (fun _ _ => 0) (fun _ => 1) (fun _ => 1) 5
    (fun _ => 0) 0 0
  exact ⟨h.1, h.2.2⟩

/-- C10: `score(X_test, y_test)` divides `right_count` by `len(X_test)`
with no guard: on an empty evaluation set the call fails (division by
zero, modelled as `none`); on a non-empty one it returns
`right_count / len(X_test)`, a fraction in `[0, 1]`. -/
theorem c10_score_division {V : Type} {m : ℕ} (ker : V → V → ℚ)
    (X : Fin m → V) (st : SVMState m) (ys : List ℚ) :
    score ker X st [] ys = none ∧
    ∀ xs : List V, xs ≠ [] →
      ∃ q : ℚ, score ker X st xs ys = some q ∧
        q = (rightCount ker X st xs ys : ℚ) / (xs.length : ℚ) ∧
        0 ≤ q ∧ q ≤ 1 := by
  refine ⟨rfl, ?_⟩
  intro xs hxs
  have hlen : 0 < xs.length := List.length_pos.mpr hxs
  have hlenQ : (0 : ℚ) < (xs.length : ℚ) := by exact_mod_cast hlen
  refine ⟨(rightCount ker X st xs ys : ℚ) / (xs.length : ℚ),
    score_nonempty ker X st xs ys hxs, rfl, ?_, ?_⟩
  · positivity
  · rw [div_le_one hlenQ]
    exact_mod_cast rightCount_le_length ker X st xs ys

/-- Witness for C10 on a concrete singleton evaluation set. -/
theorem c10_score_division_witness :
    ∃ q : ℚ, score (fun a b : ℚ => a * b) (fun _ : Fin 1 => (1 : ℚ))
        exampleState [1] [1] = some q ∧
      q = (rightCount (fun a b : ℚ => a * b) (fun _ : Fin 1 => (1 : ℚ))
            exampleState [1] [1] : ℚ) / (([1] : List ℚ).length : ℚ) ∧
      0 ≤ q ∧ q ≤ 1 :=
  (c10_score_division (fun a b : ℚ => a * b) (fun _ : Fin 1 => (1 : ℚ))
    exampleState [1]).2 [1] (by simp)

end SVM
